import Mathlib

/-!
Verification of the client-side commit / upload / list-consensus core of the
gosdk repository.  The Go source is shallowly embedded: pure computations
become Lean functions, stateful code becomes explicit state passing, network
and collaborator calls (HTTP transport, signing, hashing, the erasure codec)
become environment inputs supplied to the embedded functions.
-/

/-- Modelled from the spec: `hash(bytes) → digest` (external collaborator
`encryption.Hash`, not part of the sources).  Modelled as an injective tag so
that distinct inputs give distinct digests (collision freeness). -/
def Hash (s : String) : String := "sha3:" ++ s

theorem Hash.inj {a b : String} (h : Hash a = Hash b) : a = b := by
  have h2 : ("sha3:" ++ a).data = ("sha3:" ++ b).data := congrArg String.data h
  simp only [String.data_append] at h2
  exact String.ext (List.append_cancel_left h2)

/-! ## Write markers and commit requests (src/unnamed/part_000) -/

/-- `marker.WriteMarker`, fields as serialized to the node. -/
structure WriteMarker where
  allocationRoot : String
  previousAllocationRoot : String
  allocationID : String
  size : Int
  blobberID : String
  timestamp : Int
  clientID : String
  signature : String
deriving Repr, DecidableEq

/-- `CommitResult`: the value stored in a `CommitRequest`'s result slot. -/
structure CommitResult where
  success : Bool
  errorMessage : String
deriving Repr, DecidableEq

def ErrorCommitResult (errMsg : String) : CommitResult :=
  { success := false, errorMessage := errMsg }

def SuccessCommitResult : CommitResult :=
  { success := true, errorMessage := "" }

/-- The fetched reference tree (`fileref.Ref`).  The embedding keeps only the
canonical hash that the commit path reads; the tree's internal structure lives
in the external `fileref` package. -/
structure Ref where
  hash : String
deriving Repr, DecidableEq

/-- `rootRef.CalculateHash()`: recomputes the canonical hash of the fetched
tree.  External to the sources; in this embedding a `Ref` already carries its
canonical hash, so recomputation returns it unchanged. -/
def Ref.calculateHash (r : Ref) : Ref := r

/-- One `allocationchange.AllocationChange` (external interface): an affected
path, a size delta (`GetSize`), and the local tree mutation (`ProcessChange`),
which may fail. -/
structure AllocationChange where
  affectedPath : String
  size : Int
  apply : Ref → Except String Ref

/-- `ReferencePathResult` as consumed by `processCommit`: the decoded tree
(`GetDirTree` value and error) and the node's latest stored write marker. -/
structure ReferencePathResult where
  dirTree : Ref
  dirTreeErr : Option String
  latestWM : Option WriteMarker

/-- `CommitRequest` (the caller-owned fields; the wait group and result slot
are outcome components of the embedding). -/
structure CommitRequest where
  changes : List AllocationChange
  blobberID : String
  allocationID : String
  connectionID : String

/-- Environment of one `processCommit` run: the outcomes of every external
collaborator call it makes, in program order. -/
structure ProcEnv where
  /-- `zboxutil.NewReferencePathRequest` returned a non-nil error. -/
  refPathReqErr : Bool
  /-- outcome of the reference-path `HttpDo` round trip (fills `lR`). -/
  refPathFetch : Except String ReferencePathResult
  /-- `wm.VerifySignature(client.GetClientPublicKey())`: `none` = valid. -/
  verifySig : WriteMarker → Option String
  /-- `common.Now()` at marker construction. -/
  timestamp : Int
  /-- `client.GetClientID()`. -/
  clientID : String
  /-- `wm.Sign()`: the produced signature, or a signing error. -/
  signWM : WriteMarker → Except String String
  /-- `zboxutil.NewCommitRequest` error, if any. -/
  commitReqErr : Option String
  /-- outcome of the commit `HttpDo` round trip (non-OK status = error). -/
  commitResp : Except String Unit

/-- Observable outcome of one `processCommit` run. -/
structure ProcResult where
  /-- the value written into `commitreq.result` (`none` = never written). -/
  result : Option CommitResult
  /-- whether `commitreq.wg.Done()` was called. -/
  wgDone : Bool
  /-- the write marker submitted over the network, if the commit `HttpDo`
  call was reached (`none` = no commit submission occurred). -/
  submitted : Option WriteMarker
deriving Repr, DecidableEq

/-- The `path` variable of `processCommit`: each loop iteration overwrites it
with the change's affected path, so it ends as the last change's path (empty
for an empty batch). -/
def pathOf (changes : List AllocationChange) : String :=
  changes.foldl (fun _ c => c.affectedPath) ""

/-- The mutation loop of `processCommit`: apply each change in order to the
in-memory tree, accumulating the size delta; stop at the first failure. -/
def applyChanges : List AllocationChange → Ref → Int → Except String (Ref × Int)
  | [], r, s => Except.ok (r, s)
  | c :: cs, r, s =>
    match c.apply r with
    | Except.error e => Except.error e
    | Except.ok r2 => applyChanges cs r2 (s + c.size)

/-- `commitBlobber`: build the new write marker, sign it, and submit it.
Returns the function's `error` result paired with the marker that was actually
sent over the network (`none` when the submission `HttpDo` was never
reached). -/
def commitBlobber (creq : CommitRequest) (rootRef : Ref)
    (latestWM : Option WriteMarker) (size : Int) (env : ProcEnv) :
    Except String WriteMarker × Option WriteMarker :=
  let timestamp := env.timestamp
  let wm0 : WriteMarker :=
    { allocationRoot := Hash (rootRef.hash ++ ":" ++ toString timestamp)
      previousAllocationRoot :=
        match latestWM with
        | some l => l.allocationRoot
        | none => ""
      allocationID := creq.allocationID
      size := size
      blobberID := creq.blobberID
      timestamp := timestamp
      clientID := env.clientID
      signature := "" }
  match env.signWM wm0 with
  | Except.error e => (Except.error e, none)
  | Except.ok sig =>
    let wm := { wm0 with signature := sig }
    match env.commitReqErr with
    | some e => (Except.error e, none)
    | none =>
      match env.commitResp with
      | Except.error e => (Except.error e, some wm)
      | Except.ok _ => (Except.ok wm, some wm)

/-- Tail of `processCommit` after the write-marker chain verification: the
mutation loop followed by `commitBlobber`. -/
def processCommitApply (creq : CommitRequest) (env : ProcEnv) (rootRef : Ref)
    (latestWM : Option WriteMarker) : ProcResult :=
  match applyChanges creq.changes rootRef 0 with
  | Except.error e => ⟨some (ErrorCommitResult e), true, none⟩
  | Except.ok (rootRef2, size) =>
    match commitBlobber creq rootRef2 latestWM size env with
    | (Except.error e, sub) => ⟨some (ErrorCommitResult e), true, sub⟩
    | (Except.ok _, sub) => ⟨some SuccessCommitResult, true, sub⟩

/-- `processCommit`, whole control flow of the Go function: derive the
affected path, silently return on a request-build error or empty path, fetch
the reference path, verify the prior marker's signature and chain link,
apply the batch, and submit via `commitBlobber`. -/
def processCommit (creq : CommitRequest) (env : ProcEnv) : ProcResult :=
  let path := pathOf creq.changes
  if env.refPathReqErr = true ∨ path.length = 0 then ⟨none, false, none⟩
  else
    match env.refPathFetch with
    | Except.error e => ⟨some (ErrorCommitResult e), true, none⟩
    | Except.ok lR =>
      let rootRef := lR.dirTree
      match lR.latestWM with
      | some wm =>
        match env.verifySig wm with
        | some e => ⟨some (ErrorCommitResult e), true, none⟩
        | none =>
          let rootRef := rootRef.calculateHash
          let prevAllocationRoot :=
            Hash (rootRef.hash ++ ":" ++ toString wm.timestamp)
          if prevAllocationRoot ≠ wm.allocationRoot then
            ⟨some (ErrorCommitResult
              "Allocation root from latest writemarker mismatch"), true, none⟩
          else
            processCommitApply creq env rootRef (some wm)
      | none =>
        match lR.dirTreeErr with
        | some e => ⟨some (ErrorCommitResult e), true, none⟩
        | none => processCommitApply creq env rootRef none

/-- The latest write marker reported by the fetched reference path. -/
def fetchedWM (env : ProcEnv) : Option WriteMarker :=
  match env.refPathFetch with
  | Except.ok lR => lR.latestWM
  | Except.error _ => none

/-- The tree the mutation loop starts from: the fetched tree, re-hashed when a
prior marker existed (mirrors the `CalculateHash` call in the verification
branch). -/
def verifiedTree (env : ProcEnv) : Ref :=
  match env.refPathFetch with
  | Except.ok lR =>
    match lR.latestWM with
    | some _ => lR.dirTree.calculateHash
    | none => lR.dirTree
  | Except.error _ => ⟨""⟩

/-- The in-memory tree after the whole batch applied (equals the start tree
when the batch fails, in which case no marker is built). -/
def finalTree (creq : CommitRequest) (env : ProcEnv) : Ref :=
  match applyChanges creq.changes (verifiedTree env) 0 with
  | Except.ok (r, _) => r
  | Except.error _ => verifiedTree env

/-- Sum of the batch's size deltas. -/
def sizeSum (cs : List AllocationChange) : Int :=
  cs.foldl (fun s c => s + c.size) 0

/-- The fetch / chain-verification stage passes and control reaches the
mutation loop. -/
def wmStageOk (env : ProcEnv) : Prop :=
  ∃ lR, env.refPathFetch = Except.ok lR ∧
    match lR.latestWM with
    | some wm =>
      env.verifySig wm = none ∧
      Hash (lR.dirTree.calculateHash.hash ++ ":" ++ toString wm.timestamp) =
        wm.allocationRoot
    | none => lR.dirTreeErr = none

/-! ### Supporting lemmas on the commit path -/

theorem sizeSum_foldl (cs : List AllocationChange) (a : Int) :
    cs.foldl (fun s c => s + c.size) a = a + sizeSum cs := by
  induction cs generalizing a with
  | nil => simp [sizeSum]
  | cons c cs ih =>
    simp only [List.foldl_cons, sizeSum] at *
    rw [ih (a + c.size), ih (0 + c.size)]
    ring

theorem applyChanges_ok_size (cs : List AllocationChange) (r r2 : Ref)
    (s s2 : Int) (h : applyChanges cs r s = Except.ok (r2, s2)) :
    s2 = s + sizeSum cs := by
  induction cs generalizing r s with
  | nil =>
    simp [applyChanges] at h
    simp [sizeSum, h]
  | cons c cs ih =>
    simp only [applyChanges] at h
    cases hap : c.apply r with
    | error e => rw [hap] at h; exact absurd h (by simp)
    | ok rr =>
      rw [hap] at h
      have h2 := ih rr (s + c.size) h
      have h3 : sizeSum (c :: cs) = c.size + sizeSum cs := by
        simp only [sizeSum, List.foldl_cons]
        rw [sizeSum_foldl]
        simp only [sizeSum]
        ring
      rw [h2, h3]
      ring

theorem applyChanges_append (l1 l2 : List AllocationChange) (r : Ref) (s : Int) :
    applyChanges (l1 ++ l2) r s =
      match applyChanges l1 r s with
      | Except.error e => Except.error e
      | Except.ok (r2, s2) => applyChanges l2 r2 s2 := by
  induction l1 generalizing r s with
  | nil => simp [applyChanges]
  | cons c cs ih =>
    simp only [List.cons_append, applyChanges]
    cases c.apply r with
    | error e => rfl
    | ok r2 => exact ih r2 (s + c.size)

theorem string_eq_empty_of_length (s : String) (h : s.length = 0) : s = "" := by
  cases s with
  | mk data =>
    cases data with
    | nil => rfl
    | cons a l => simp [String.length] at h

theorem commitBlobber_sub (creq : CommitRequest) (r2 : Ref)
    (lwm : Option WriteMarker) (size : Int) (env : ProcEnv) (wm : WriteMarker)
    (h : (commitBlobber creq r2 lwm size env).2 = some wm) :
    wm.allocationRoot = Hash (r2.hash ++ ":" ++ toString env.timestamp)
    ∧ wm.previousAllocationRoot = ((lwm.map WriteMarker.allocationRoot).getD "")
    ∧ wm.timestamp = env.timestamp
    ∧ wm.size = size := by
  simp only [commitBlobber] at h
  split at h
  · simp at h
  · split at h
    · simp at h
    · split at h
      · simp only [Option.some.injEq] at h
        subst h
        cases lwm <;> simp
      · simp only [Option.some.injEq] at h
        subst h
        cases lwm <;> simp

theorem processCommitApply_submitted (creq : CommitRequest) (env : ProcEnv)
    (r : Ref) (lwm : Option WriteMarker) (wm : WriteMarker)
    (h : (processCommitApply creq env r lwm).submitted = some wm) :
    ∃ r2 size, applyChanges creq.changes r 0 = Except.ok (r2, size)
      ∧ wm.allocationRoot = Hash (r2.hash ++ ":" ++ toString env.timestamp)
      ∧ wm.previousAllocationRoot = ((lwm.map WriteMarker.allocationRoot).getD "")
      ∧ wm.timestamp = env.timestamp
      ∧ wm.size = size := by
  unfold processCommitApply at h
  split at h
  · simp at h
  · rename_i r2 size heq
    split at h
    · rename_i e sub heq2
      simp only at h
      have h2 : (commitBlobber creq r2 lwm size env).2 = some wm := by
        rw [heq2]
        exact h
      exact ⟨r2, size, heq, commitBlobber_sub creq r2 lwm size env wm h2⟩
    · rename_i a sub heq2
      simp only at h
      have h2 : (commitBlobber creq r2 lwm size env).2 = some wm := by
        rw [heq2]
        exact h
      exact ⟨r2, size, heq, commitBlobber_sub creq r2 lwm size env wm h2⟩

theorem processCommit_submitted_eq (creq : CommitRequest) (env : ProcEnv)
    (wm : WriteMarker) (h : (processCommit creq env).submitted = some wm) :
    processCommit creq env =
      processCommitApply creq env (verifiedTree env) (fetchedWM env) := by
  by_cases hc : env.refPathReqErr = true ∨ (pathOf creq.changes).length = 0
  · simp [processCommit, hc] at h
  · cases hfetch : env.refPathFetch with
    | error e => simp [processCommit, hc, hfetch] at h
    | ok lR =>
      cases hwm : lR.latestWM with
      | none =>
        cases hdt : lR.dirTreeErr with
        | some e => simp [processCommit, hc, hfetch, hwm, hdt] at h
        | none => simp [processCommit, verifiedTree, fetchedWM, hc, hfetch, hwm, hdt]
      | some pwm =>
        cases hsig : env.verifySig pwm with
        | some e => simp [processCommit, hc, hfetch, hwm, hsig] at h
        | none =>
          by_cases hmm : Hash (lR.dirTree.calculateHash.hash ++ ":" ++
              toString pwm.timestamp) ≠ pwm.allocationRoot
          · simp [processCommit, hc, hfetch, hwm, hsig, hmm] at h
          · simp [processCommit, verifiedTree, fetchedWM, hc, hfetch, hwm, hsig, hmm]

theorem processCommit_reach (creq : CommitRequest) (env : ProcEnv)
    (hre : env.refPathReqErr = false)
    (hpath : pathOf creq.changes ≠ "")
    (hstage : wmStageOk env) :
    processCommit creq env =
      processCommitApply creq env (verifiedTree env) (fetchedWM env) := by
  have hlen : ¬ (pathOf creq.changes).length = 0 := fun hl =>
    hpath (string_eq_empty_of_length _ hl)
  obtain ⟨lR, hfetch, hrest⟩ := hstage
  cases hwm : lR.latestWM with
  | none =>
    rw [hwm] at hrest
    simp [processCommit, verifiedTree, fetchedWM, hre, hlen, hfetch, hwm, hrest]
  | some pwm =>
    rw [hwm] at hrest
    obtain ⟨hsig, hroot⟩ := hrest
    simp [processCommit, verifiedTree, fetchedWM, hre, hlen, hfetch, hwm, hsig, hroot]

theorem processCommitApply_reports (creq : CommitRequest) (env : ProcEnv)
    (r : Ref) (lwm : Option WriteMarker) :
    (processCommitApply creq env r lwm).result.isSome = true
    ∧ (processCommitApply creq env r lwm).wgDone = true := by
  unfold processCommitApply
  split
  · simp
  · split
    · simp
    · simp

/-! ### Claim theorems for the commit path -/

/-- C1: every marker submitted by a commit has `previous_allocation_root`
equal to the fetched prior marker's `allocation_root` (empty string when the
node reported no prior marker — so for two sequential commits on one node,
where the second fetch reports the first commit's marker, marker 2's previous
root equals marker 1's root), `allocation_root = Hash(mutated tree root hash
++ ":" ++ own timestamp)`, and `size` equal to the size delta accumulated over
the batch's mutations. -/
theorem c1_commit_marker_fields (creq : CommitRequest) (env : ProcEnv)
    (wm : WriteMarker) (h : (processCommit creq env).submitted = some wm) :
    wm.previousAllocationRoot =
      ((fetchedWM env).map WriteMarker.allocationRoot).getD ""
    ∧ wm.timestamp = env.timestamp
    ∧ wm.allocationRoot =
      Hash ((finalTree creq env).hash ++ ":" ++ toString wm.timestamp)
    ∧ wm.size = sizeSum creq.changes := by
  have heq := processCommit_submitted_eq creq env wm h
  rw [heq] at h
  obtain ⟨r2, size, hap, hroot, hprev, hts, hsize⟩ :=
    processCommitApply_submitted creq env (verifiedTree env) (fetchedWM env) wm h
  have hft : finalTree creq env = r2 := by
    unfold finalTree
    rw [hap]
  have hss : size = sizeSum creq.changes := by
    have := applyChanges_ok_size creq.changes (verifiedTree env) r2 0 size hap
    omega
  exact ⟨hprev, hts, by rw [hft, hts]; exact hroot, by rw [hsize, hss]⟩

def chgA : AllocationChange :=
  { affectedPath := "/p", size := 5, apply := fun _ => Except.ok ⟨"rh2"⟩ }

def creqA : CommitRequest :=
  { changes := [chgA], blobberID := "b1", allocationID := "alloc1",
    connectionID := "conn1" }

def envA : ProcEnv :=
  { refPathReqErr := false
    refPathFetch :=
      Except.ok { dirTree := ⟨"rh1"⟩, dirTreeErr := none, latestWM := none }
    verifySig := fun _ => none
    timestamp := 7
    clientID := "cid"
    signWM := fun _ => Except.ok "sig"
    commitReqErr := none
    commitResp := Except.ok () }

def wmA : WriteMarker :=
  { allocationRoot := Hash "rh2:7", previousAllocationRoot := "",
    allocationID := "alloc1", size := 5, blobberID := "b1", timestamp := 7,
    clientID := "cid", signature := "sig" }

/-- Witness for C1 at a concrete commit run. -/
theorem c1_commit_marker_fields_witness :
    wmA.previousAllocationRoot =
      ((fetchedWM envA).map WriteMarker.allocationRoot).getD ""
    ∧ wmA.timestamp = envA.timestamp
    ∧ wmA.allocationRoot =
      Hash ((finalTree creqA envA).hash ++ ":" ++ toString wmA.timestamp)
    ∧ wmA.size = sizeSum creqA.changes :=
  c1_commit_marker_fields creqA envA wmA (by rfl)

/-- C2: when the fetch reports a prior write marker whose signature verifies
but whose `allocation_root` differs from the recomputed
`Hash(treeHash ++ ":" ++ prior timestamp)`, the commit attempt stores the
chain-mismatch error in the request's result slot, signals completion, and
performs no commit submission (the node's state is untouched). -/
theorem c2_chain_mismatch_aborts (creq : CommitRequest) (env : ProcEnv)
    (lR : ReferencePathResult) (pwm : WriteMarker)
    (hre : env.refPathReqErr = false)
    (hpath : pathOf creq.changes ≠ "")
    (hfetch : env.refPathFetch = Except.ok lR)
    (hwm : lR.latestWM = some pwm)
    (hsig : env.verifySig pwm = none)
    (hmm : Hash (lR.dirTree.calculateHash.hash ++ ":" ++
      toString pwm.timestamp) ≠ pwm.allocationRoot) :
    processCommit creq env =
      ⟨some (ErrorCommitResult "Allocation root from latest writemarker mismatch"),
        true, none⟩ := by
  have hlen : ¬ (pathOf creq.changes).length = 0 := fun hl =>
    hpath (string_eq_empty_of_length _ hl)
  simp [processCommit, hre, hlen, hfetch, hwm, hsig, hmm]

def chgB : AllocationChange :=
  { affectedPath := "/q", size := 1, apply := fun r => Except.ok r }

def creqB : CommitRequest :=
  { changes := [chgB], blobberID := "b1", allocationID := "alloc1",
    connectionID := "conn1" }

def pwmB : WriteMarker :=
  { allocationRoot := "tampered-root", previousAllocationRoot := "",
    allocationID := "alloc1", size := 0, blobberID := "b1", timestamp := 3,
    clientID := "cid", signature := "oksig" }

def envB : ProcEnv :=
  { refPathReqErr := false
    refPathFetch :=
      Except.ok { dirTree := ⟨"rh1"⟩, dirTreeErr := none, latestWM := some pwmB }
    verifySig := fun _ => none
    timestamp := 9
    clientID := "cid"
    signWM := fun _ => Except.ok "sig"
    commitReqErr := none
    commitResp := Except.ok () }

/-- Witness for C2 at a concrete mismatching prior marker. -/
theorem c2_chain_mismatch_aborts_witness :
    processCommit creqB envB =
      ⟨some (ErrorCommitResult "Allocation root from latest writemarker mismatch"),
        true, none⟩ :=
  c2_chain_mismatch_aborts creqB envB
    { dirTree := ⟨"rh1"⟩, dirTreeErr := none, latestWM := some pwmB } pwmB
    (by rfl) (by decide) (by rfl) (by rfl) (by rfl) (by decide)

/-- C4: when the commit attempt reaches the mutation loop and the first
failing mutation is `c` (after the prefix `cs1` applied cleanly), the attempt
stores that mutation's error in the result slot, signals completion, performs
no commit submission, and every mutation after `c` is discarded: the loop's
outcome is the same error for any suffix after `c`. -/
theorem c4_mutation_failure_aborts_batch (creq : CommitRequest) (env : ProcEnv)
    (cs1 cs2 : List AllocationChange) (c : AllocationChange)
    (r2 : Ref) (s2 : Int) (e : String)
    (hre : env.refPathReqErr = false)
    (hpath : pathOf creq.changes ≠ "")
    (hstage : wmStageOk env)
    (hch : creq.changes = cs1 ++ c :: cs2)
    (hpre : applyChanges cs1 (verifiedTree env) 0 = Except.ok (r2, s2))
    (hfail : c.apply r2 = Except.error e) :
    processCommit creq env = ⟨some (ErrorCommitResult e), true, none⟩
    ∧ ∀ cs3, applyChanges (cs1 ++ c :: cs3) (verifiedTree env) 0 =
        Except.error e := by
  have hall : ∀ cs3, applyChanges (cs1 ++ c :: cs3) (verifiedTree env) 0 =
      Except.error e := by
    intro cs3
    rw [applyChanges_append, hpre]
    simp [applyChanges, hfail]
  refine ⟨?_, hall⟩
  rw [processCommit_reach creq env hre hpath hstage]
  unfold processCommitApply
  rw [hch, hall cs2]

def chgFail : AllocationChange :=
  { affectedPath := "/r", size := 2,
    apply := fun _ => Except.error "mutation failed" }

def creqC : CommitRequest :=
  { changes := [chgFail, chgA], blobberID := "b1", allocationID := "alloc1",
    connectionID := "conn1" }

/-- Witness for C4: a batch whose first mutation fails. -/
theorem c4_mutation_failure_aborts_batch_witness :
    processCommit creqC envA =
      ⟨some (ErrorCommitResult "mutation failed"), true, none⟩
    ∧ ∀ cs3, applyChanges ([] ++ chgFail :: cs3) (verifiedTree envA) 0 =
        Except.error "mutation failed" :=
  c4_mutation_failure_aborts_batch creqC envA [] [chgA] chgFail
    (verifiedTree envA) 0 "mutation failed"
    (by rfl) (by decide)
    ⟨{ dirTree := ⟨"rh1"⟩, dirTreeErr := none, latestWM := none },
      by rfl, by rfl⟩
    (by rfl) (by rfl) (by rfl)

/-- C10: if the change batch is empty (so the derived affected path is empty)
or the reference-path request cannot be built, `processCommit` returns without
writing the request's result slot and without signaling its wait group; every
other path of the function stores a result and signals completion. -/
theorem c10_silent_return_paths (creq : CommitRequest) (env : ProcEnv) :
    ((env.refPathReqErr = true ∨ pathOf creq.changes = "") →
      processCommit creq env = ⟨none, false, none⟩)
    ∧ (creq.changes = [] → pathOf creq.changes = "")
    ∧ (env.refPathReqErr = false → pathOf creq.changes ≠ "" →
      (processCommit creq env).result.isSome = true
      ∧ (processCommit creq env).wgDone = true) := by
  refine ⟨?_, ?_, ?_⟩
  · intro hc
    have : env.refPathReqErr = true ∨ (pathOf creq.changes).length = 0 := by
      rcases hc with hc | hc
      · exact Or.inl hc
      · exact Or.inr (by rw [hc]; rfl)
    simp [processCommit, this]
  · intro hc
    rw [hc]
    rfl
  · intro hre hpath
    have hlen : ¬ (pathOf creq.changes).length = 0 := fun hl =>
      hpath (string_eq_empty_of_length _ hl)
    cases hfetch : env.refPathFetch with
    | error e => simp [processCommit, hre, hlen, hfetch]
    | ok lR =>
      cases hwm : lR.latestWM with
      | none =>
        cases hdt : lR.dirTreeErr with
        | some e => simp [processCommit, hre, hlen, hfetch, hwm, hdt]
        | none =>
          have hgoal : processCommit creq env =
              processCommitApply creq env lR.dirTree none := by
            simp [processCommit, hre, hlen, hfetch, hwm, hdt]
          rw [hgoal]
          exact processCommitApply_reports creq env lR.dirTree none
      | some pwm =>
        cases hsig : env.verifySig pwm with
        | some e => simp [processCommit, hre, hlen, hfetch, hwm, hsig]
        | none =>
          by_cases hmm : Hash (lR.dirTree.calculateHash.hash ++ ":" ++
              toString pwm.timestamp) = pwm.allocationRoot
          · have hgoal : processCommit creq env =
                processCommitApply creq env lR.dirTree.calculateHash (some pwm) := by
              simp [processCommit, hre, hlen, hfetch, hwm, hsig, hmm]
            rw [hgoal]
            exact processCommitApply_reports creq env
              lR.dirTree.calculateHash (some pwm)
          · simp [processCommit, hre, hlen, hfetch, hwm, hsig, hmm]

def creqEmpty : CommitRequest :=
  { changes := [], blobberID := "b1", allocationID := "alloc1",
    connectionID := "conn1" }

/-- Witness for C10: an empty batch returns silently. -/
theorem c10_silent_return_paths_witness :
    processCommit creqEmpty envA = ⟨none, false, none⟩ :=
  (c10_silent_return_paths creqEmpty envA).1 (Or.inr (by rfl))

/-! ## Commit worker pool (`InitCommitWorker`, src/unnamed/part_000) -/

/-- The package-level pool state: the `commitChan` registry (node id → queue;
the `Nat` is the queue's creation stamp, letting the model state that a queue
is never replaced) and the list of spawned workers, one entry per
`go startCommitWorker`. -/
structure PoolState where
  chans : List (String × Nat)
  workers : List String
  nextTok : Nat
deriving Repr, DecidableEq

/-- The registered node ids (keys of `commitChan`). -/
def poolKeys (st : PoolState) : List String := st.chans.map Prod.fst

/-- One iteration of `InitCommitWorker`'s loop: if the blobber id is unknown,
create its queue and spawn its worker; otherwise do nothing. -/
def registerBlobber (st : PoolState) (id : String) : PoolState :=
  if id ∈ poolKeys st then st
  else
    { chans := st.chans ++ [(id, st.nextTok)]
      workers := st.workers ++ [id]
      nextTok := st.nextTok + 1 }

/-- `InitCommitWorker`: under the mutex, lazily create the registry and
register each supplied blobber. -/
def InitCommitWorker (st : PoolState) (blobbers : List String) : PoolState :=
  blobbers.foldl registerBlobber st

/-- The empty registry (a nil `commitChan`, created lazily on first call). -/
def emptyPool : PoolState := ⟨[], [], 0⟩

/-- A whole sequence of `InitCommitWorker` calls starting from the package's
initial state. -/
def runInits (calls : List (List String)) : PoolState :=
  calls.foldl InitCommitWorker emptyPool

theorem registerBlobber_keys (st : PoolState) (id id2 : String) :
    id2 ∈ poolKeys (registerBlobber st id) ↔ id2 ∈ poolKeys st ∨ id2 = id := by
  unfold registerBlobber
  by_cases h : id ∈ poolKeys st
  · rw [if_pos h]
    constructor
    · exact Or.inl
    · rintro (h2 | rfl)
      · exact h2
      · exact h
  · rw [if_neg h]
    simp [poolKeys]

theorem registerBlobber_chans_mono (st : PoolState) (id : String)
    (p : String × Nat) (h : p ∈ st.chans) :
    p ∈ (registerBlobber st id).chans := by
  unfold registerBlobber
  by_cases hmem : id ∈ poolKeys st
  · simpa [if_pos hmem]
  · simp [if_neg hmem, h]

/-- Pool invariant: no duplicate node ids and exactly one worker per
registered queue (in registration order). -/
def PoolInv (st : PoolState) : Prop :=
  (poolKeys st).Nodup ∧ st.workers = poolKeys st

theorem registerBlobber_inv (st : PoolState) (id : String) (h : PoolInv st) :
    PoolInv (registerBlobber st id) := by
  obtain ⟨hnd, hw⟩ := h
  unfold registerBlobber
  by_cases hmem : id ∈ poolKeys st
  · rw [if_pos hmem]
    exact ⟨hnd, hw⟩
  · rw [if_neg hmem]
    refine ⟨?_, ?_⟩
    · show (List.map Prod.fst (st.chans ++ [(id, st.nextTok)])).Nodup
      rw [List.map_append, List.nodup_append]
      refine ⟨hnd, by simp, ?_⟩
      intro a ha hb
      simp at hb
      subst hb
      exact hmem ha
    · show st.workers ++ [id] = List.map Prod.fst (st.chans ++ [(id, st.nextTok)])
      rw [hw, List.map_append]
      rfl

theorem registerBlobber_noop (st : PoolState) (id : String)
    (h : id ∈ poolKeys st) : registerBlobber st id = st := by
  simp [registerBlobber, if_pos h]

theorem InitCommitWorker_inv (bs : List String) (st : PoolState)
    (h : PoolInv st) : PoolInv (InitCommitWorker st bs) := by
  induction bs generalizing st with
  | nil => exact h
  | cons b bs ih => exact ih (registerBlobber st b) (registerBlobber_inv st b h)

theorem InitCommitWorker_keys (bs : List String) (st : PoolState)
    (id : String) :
    id ∈ poolKeys (InitCommitWorker st bs) ↔ id ∈ poolKeys st ∨ id ∈ bs := by
  induction bs generalizing st with
  | nil => simp [InitCommitWorker]
  | cons b bs ih =>
    show id ∈ poolKeys (InitCommitWorker (registerBlobber st b) bs) ↔ _
    rw [ih (registerBlobber st b), registerBlobber_keys]
    simp
    tauto

theorem InitCommitWorker_noop (bs : List String) (st : PoolState)
    (h : ∀ id ∈ bs, id ∈ poolKeys st) : InitCommitWorker st bs = st := by
  induction bs with
  | nil => rfl
  | cons b bs ih =>
    show InitCommitWorker (registerBlobber st b) bs = st
    rw [registerBlobber_noop st b (h b (by simp))]
    exact ih (fun id hid => h id (by simp [hid]))

theorem InitCommitWorker_chans_mono (bs : List String) (st : PoolState)
    (p : String × Nat) (h : p ∈ st.chans) :
    p ∈ (InitCommitWorker st bs).chans := by
  induction bs generalizing st with
  | nil => exact h
  | cons b bs ih =>
    exact ih (registerBlobber st b) (registerBlobber_chans_mono st b p h)

theorem foldl_pool_inv (calls : List (List String)) (st : PoolState)
    (h : PoolInv st) : PoolInv (calls.foldl InitCommitWorker st) := by
  induction calls generalizing st with
  | nil => exact h
  | cons c cs ih => exact ih (InitCommitWorker st c) (InitCommitWorker_inv c st h)

theorem runInits_mem (calls : List (List String)) (st : PoolState)
    (id : String) :
    id ∈ poolKeys (calls.foldl InitCommitWorker st) ↔
      id ∈ poolKeys st ∨ ∃ bs ∈ calls, id ∈ bs := by
  induction calls generalizing st with
  | nil => simp
  | cons c cs ih =>
    show id ∈ poolKeys (cs.foldl InitCommitWorker (InitCommitWorker st c)) ↔ _
    rw [ih (InitCommitWorker st c), InitCommitWorker_keys]
    simp
    tauto

/-- C3: iterating `InitCommitWorker` over any sequence of (possibly
overlapping) node sets yields exactly one queue and exactly one worker per
unique node id; every supplied id ends up registered; re-registering only
already-known ids is a no-op; and existing queue entries (with their creation
stamps) are never replaced by later calls. -/
theorem c3_init_commit_worker_idempotent (calls : List (List String)) :
    (poolKeys (runInits calls)).Nodup
    ∧ (runInits calls).workers = poolKeys (runInits calls)
    ∧ (∀ id, id ∈ poolKeys (runInits calls) ↔ ∃ bs ∈ calls, id ∈ bs)
    ∧ (∀ bs, (∀ id ∈ bs, id ∈ poolKeys (runInits calls)) →
        InitCommitWorker (runInits calls) bs = runInits calls)
    ∧ (∀ p ∈ (runInits calls).chans, ∀ bs,
        p ∈ (InitCommitWorker (runInits calls) bs).chans) := by
  have hinv := foldl_pool_inv calls emptyPool ⟨List.nodup_nil, rfl⟩
  refine ⟨hinv.1, hinv.2, ?_, ?_, ?_⟩
  · intro id
    have h := runInits_mem calls emptyPool id
    simpa [emptyPool, poolKeys] using h
  · intro bs h
    exact InitCommitWorker_noop bs (runInits calls) h
  · intro p hp bs
    exact InitCommitWorker_chans_mono bs (runInits calls) p hp

def poolCallsEx : List (List String) := [["a", "b"], ["b", "c"]]

/-- Witness for C3: two overlapping initializer calls. -/
theorem c3_init_commit_worker_idempotent_witness :
    poolKeys (runInits poolCallsEx) = ["a", "b", "c"]
    ∧ (runInits poolCallsEx).workers = ["a", "b", "c"]
    ∧ InitCommitWorker (runInits poolCallsEx) ["b", "a"] =
        runInits poolCallsEx :=
  ⟨by decide, by decide,
    (c3_init_commit_worker_idempotent poolCallsEx).2.2.2.1 ["b", "a"]
      (by decide)⟩

/-! ## Thumbnail upload (src/zboxcore/sdk/thumbnailupload.go) -/

/-- `bits.TrailingZeros32`, fuel-indexed so that it is structurally
recursive; the Go loop only calls it on a nonzero 32-bit word, for which
fuel 32 is enough. -/
def trailingZeros : Nat → Nat → Nat
  | 0, _ => 0
  | fuel+1, m =>
    if m = 0 then 0
    else if m % 2 = 1 then 0
    else trailingZeros fuel (m / 2) + 1

/-- The Go loop update `i &= ^(1 << uint32(pos))`: clear bit `pos`, with the
complement taken within 32 bits. -/
def clearBit32 (m pos : Nat) : Nat := m &&& (4294967295 ^^^ (1 <<< pos))

/-- The shard-dispatch loop shared by `pushThumbnailData` and
`completeThumbnailPush`: starting from channel counter `c`, repeatedly take
the mask's lowest set bit `pos` (via `TrailingZeros32`), emit the pair
`(c, pos)`, clear the bit, and increment `c`.  Fuel-indexed; 33 is enough for
any 32-bit mask. -/
def sendPairsF : Nat → Nat → Nat → List (Nat × Nat)
  | 0, _, _ => []
  | fuel+1, m, c =>
    if m = 0 then []
    else
      let pos := trailingZeros 32 m
      (c, pos) :: sendPairsF fuel (clearBit32 m pos) (c+1)

/-- The loop as run by the source, with counter starting at 0. -/
def sendPairs (mask : Nat) : List (Nat × Nat) := sendPairsF 33 mask 0

/-- The set bit indices of a 32-bit mask, in ascending order. -/
def setBits (m : Nat) : List Nat :=
  (List.range 32).filter (fun j => m.testBit j)

theorem trailingZeros_spec (fuel : Nat) :
    ∀ m, m ≠ 0 → m < 2^fuel →
    m.testBit (trailingZeros fuel m) = true
    ∧ ∀ j, j < trailingZeros fuel m → m.testBit j = false := by
  induction fuel with
  | zero =>
    intro m hm hf
    simp at hf
    omega
  | succ f ih =>
    intro m hm hf
    simp only [trailingZeros]
    rw [if_neg hm]
    by_cases ho : m % 2 = 1
    · rw [if_pos ho]
      refine ⟨by simp [Nat.testBit_zero, ho], fun j hj => by omega⟩
    · rw [if_neg ho]
      have hm2 : m / 2 ≠ 0 := by omega
      have hf2 : m / 2 < 2 ^ f := by
        rw [pow_succ] at hf
        omega
      obtain ⟨h1, h2⟩ := ih (m/2) hm2 hf2
      refine ⟨by rw [Nat.testBit_succ]; exact h1, ?_⟩
      intro j hj
      cases j with
      | zero => simp [Nat.testBit_zero]; omega
      | succ j2 =>
        rw [Nat.testBit_succ]
        exact h2 j2 (by omega)

theorem clearBit32_testBit (m t j : Nat) (hm : m < 2^32) :
    (clearBit32 m t).testBit j = (m.testBit j && !(j == t)) := by
  unfold clearBit32
  rw [Nat.testBit_and, Nat.testBit_xor, Nat.one_shiftLeft]
  have h1 : (4294967295 : Nat) = 2^32 - 1 := by norm_num
  rw [h1, Nat.testBit_two_pow_sub_one]
  by_cases hjt : j = t
  · subst hjt
    rw [Nat.testBit_two_pow_self]
    by_cases hj : j < 32
    · simp [hj]
    · have hz : m.testBit j = false :=
        Nat.testBit_lt_two_pow
          (lt_of_lt_of_le hm (Nat.pow_le_pow_right (by norm_num) (by omega)))
      simp [hj, hz]
  · rw [Nat.testBit_two_pow_of_ne (fun h => hjt h.symm)]
    by_cases hj : j < 32
    · simp [hj, hjt]
    · have hz : m.testBit j = false :=
        Nat.testBit_lt_two_pow
          (lt_of_lt_of_le hm (Nat.pow_le_pow_right (by norm_num) (by omega)))
      simp [hj, hjt, hz]

theorem filter_range_eq_cons (t k : Nat) (p q : Nat → Bool)
    (hpt : p t = true) (hmin : ∀ j, j < t → p j = false)
    (hq : ∀ j, q j = (p j && !(j == t))) :
    (List.range (t + 1 + k)).filter p =
      t :: (List.range (t + 1 + k)).filter q := by
  rw [List.range_add, List.filter_append, List.filter_append]
  have hr1p : (List.range (t+1)).filter p = [t] := by
    rw [List.range_succ, List.filter_append]
    have h0 : (List.range t).filter p = [] := by
      rw [List.filter_eq_nil_iff]
      intro a ha
      simp [hmin a (List.mem_range.1 ha)]
    rw [h0]
    simp [List.filter_cons, hpt]
  have hr1q : (List.range (t+1)).filter q = [] := by
    rw [List.filter_eq_nil_iff]
    intro a ha
    have ha2 : a < t + 1 := List.mem_range.1 ha
    by_cases hat : a = t
    · subst hat
      simp [hq, hpt]
    · have hlt : a < t := by omega
      simp [hq, hmin a hlt]
  have htail : ((List.range k).map (fun x => t + 1 + x)).filter q =
      ((List.range k).map (fun x => t + 1 + x)).filter p := by
    apply List.filter_congr
    intro a ha
    simp only [List.mem_map, List.mem_range] at ha
    obtain ⟨x, hx, rfl⟩ := ha
    rw [hq, beq_eq_false_iff_ne.2 (by omega : t + 1 + x ≠ t)]
    simp
  rw [hr1p, hr1q, htail]
  rfl

theorem sendPairsF_eq (fuel : Nat) :
    ∀ m c, m < 2^32 → (setBits m).length ≤ fuel →
    sendPairsF fuel m c = (setBits m).enumFrom c := by
  induction fuel with
  | zero =>
    intro m c hm hlen
    have h0 : setBits m = [] := List.length_eq_zero.1 (by omega)
    simp [sendPairsF, h0]
  | succ f ih =>
    intro m c hm hlen
    by_cases hm0 : m = 0
    · subst hm0
      have h0 : setBits 0 = [] := by simp [setBits, Nat.zero_testBit]
      simp [sendPairsF, h0]
    · obtain ⟨ht, hmin⟩ := trailingZeros_spec 32 m hm0 hm
      have htlt : trailingZeros 32 m < 32 := by
        by_contra hge
        have hz : m.testBit (trailingZeros 32 m) = false :=
          Nat.testBit_lt_two_pow
            (lt_of_lt_of_le hm (Nat.pow_le_pow_right (by norm_num) (by omega)))
        rw [hz] at ht
        exact Bool.false_ne_true ht
      have hcons : setBits m = trailingZeros 32 m ::
          setBits (clearBit32 m (trailingZeros 32 m)) := by
        have hfr := filter_range_eq_cons (trailingZeros 32 m)
          (32 - trailingZeros 32 m - 1) (fun j => m.testBit j)
          (fun j => (clearBit32 m (trailingZeros 32 m)).testBit j) ht hmin
          (fun j => clearBit32_testBit m (trailingZeros 32 m) j hm)
        have h32 : trailingZeros 32 m + 1 + (32 - trailingZeros 32 m - 1) = 32 := by
          omega
        rw [h32] at hfr
        exact hfr
      have hlt : clearBit32 m (trailingZeros 32 m) < 2^32 :=
        lt_of_le_of_lt Nat.and_le_left hm
      have hlen2 : (setBits (clearBit32 m (trailingZeros 32 m))).length ≤ f := by
        have hc := congrArg List.length hcons
        simp only [List.length_cons] at hc
        omega
      have hstep : sendPairsF (f+1) m c = (c, trailingZeros 32 m) ::
          sendPairsF f (clearBit32 m (trailingZeros 32 m)) (c+1) := by
        simp [sendPairsF, hm0]
      rw [hstep, ih (clearBit32 m (trailingZeros 32 m)) (c+1) hlt hlen2, hcons]
      rfl

theorem sendPairs_eq (mask : Nat) (h : mask < 2^32) :
    sendPairs mask = (setBits mask).enum := by
  have hlen : (setBits mask).length ≤ 33 := by
    have h1 := (List.range 32).length_filter_le (fun j => mask.testBit j)
    simp only [List.length_range] at h1
    unfold setBits
    omega
  exact sendPairsF_eq 33 mask 0 h hlen

/-- Upload-session state touched by the thumbnail push (`UploadRequest`). -/
structure UploadRequestT where
  isRepair : Bool
  thumbRemaining : Int
  /-- bytes written so far into `thumbnailHashWr` (the running hash input). -/
  thumbnailHashInput : List Nat
  uploadMask : Nat
  datashards : Nat
  parityshards : Nat
  /-- `req.filemeta.ThumbnailHash`. -/
  filemetaThumbnailHash : String
deriving Repr, DecidableEq

/-- Observable outcome of one `pushThumbnailData` call. -/
structure PushOutcome where
  req : UploadRequestT
  /-- `(channel index, shard bytes)` sends on `uploadThumbCh`, in order. -/
  sent : List (Nat × List Nat)
  err : Option String
deriving Repr, DecidableEq

/-- `pushThumbnailData`: clamp the hashed byte count to the remaining budget,
feed the running hash only when not repairing, decrement the budget,
erasure-encode (`encRes` is the external codec's outcome, covering both
`NewEncoder` and `Encode` failures), then send `shards[pos]` on channel `c`
for every set bit `pos` of `req.uploadMask`, lowest bit first. -/
def pushThumbnailData (req : UploadRequestT) (data : List Nat)
    (encRes : Except String (List (List Nat))) : PushOutcome :=
  let n : Int := min req.thumbRemaining (Int.ofNat data.length)
  let req1 :=
    if !req.isRepair then
      { req with thumbnailHashInput := req.thumbnailHashInput ++ data.take n.toNat }
    else req
  let req2 := { req1 with thumbRemaining := req1.thumbRemaining - n }
  match encRes with
  | Except.error e => ⟨req2, [], some e⟩
  | Except.ok shards =>
    ⟨req2, (sendPairs req.uploadMask).map (fun p => (p.1, shards.getD p.2 [])),
      none⟩

/-- Modelled from the spec: finalizing the running content digest
(`hex.EncodeToString(req.thumbnailHash.Sum(nil))`; the SHA state is an
external collaborator).  Modelled as an injective encoding of the byte stream
fed to the hash. -/
def hexDigest (bytes : List Nat) : String := "hex:" ++ toString bytes

/-- Observable outcome of one `completeThumbnailPush` call. -/
structure CompleteOutcome where
  req : UploadRequestT
  /-- channel indices that received the terminal "done" value, in order. -/
  doneSent : List Nat
deriving Repr, DecidableEq

/-- `completeThumbnailPush`: when not repairing, store the finalized digest in
`filemeta.ThumbnailHash` and send one "done" on every active channel (same
mask loop as the push); in repair mode do nothing. -/
def completeThumbnailPush (req : UploadRequestT) : CompleteOutcome :=
  if !req.isRepair then
    ⟨{ req with filemetaThumbnailHash := hexDigest req.thumbnailHashInput },
      (sendPairs req.uploadMask).map Prod.fst⟩
  else ⟨req, []⟩

/-- C5: pushing one chunk sends exactly one shard per set bit of the upload
mask, visiting set bits in ascending bit-index order; the k-th active channel
receives `shards[b_k]` where `b_k` is the k-th smallest set bit, and no shard
is sent for any cleared bit. -/
theorem c5_shard_dispatch (req : UploadRequestT) (data : List Nat)
    (shards : List (List Nat)) (h : req.uploadMask < 2^32) :
    (pushThumbnailData req data (Except.ok shards)).sent =
      ((List.range 32).filter (fun j => req.uploadMask.testBit j)).enum.map
        (fun p => (p.1, shards.getD p.2 [])) := by
  show (sendPairs req.uploadMask).map _ = _
  rw [sendPairs_eq req.uploadMask h]
  rfl

def reqD : UploadRequestT :=
  { isRepair := false, thumbRemaining := 100, thumbnailHashInput := [],
    uploadMask := 37, datashards := 5, parityshards := 3,
    filemetaThumbnailHash := "" }

def shardsD : List (List Nat) := [[1], [2], [3], [4], [5], [6], [7], [8]]

/-- Witness for C5: mask `{0,2,5}` (= 37) sends shards 0, 2, 5 to channels
0, 1, 2 and nothing else. -/
theorem c5_shard_dispatch_witness :
    reqD.uploadMask < 2^32
    ∧ (pushThumbnailData reqD [9] (Except.ok shardsD)).sent =
        [(0, [1]), (1, [3]), (2, [6])] :=
  ⟨by decide,
    (c5_shard_dispatch reqD [9] shardsD (by decide)).trans (by decide)⟩

/-- C6: in repair mode a push leaves the running content-hash input unchanged
and completion leaves `filemeta.ThumbnailHash` unchanged and sends no "done"
on any channel; when not repairing, completion stores the finalized digest of
the hashed bytes in `filemeta.ThumbnailHash` and sends exactly one "done" on
each active channel (channels `0 .. k-1` for `k` active nodes, once each). -/
theorem c6_repair_mode_gates (req : UploadRequestT) (data : List Nat)
    (encRes : Except String (List (List Nat))) :
    (req.isRepair = true →
      (pushThumbnailData req data encRes).req.thumbnailHashInput =
        req.thumbnailHashInput
      ∧ (completeThumbnailPush req).req.filemetaThumbnailHash =
        req.filemetaThumbnailHash
      ∧ (completeThumbnailPush req).doneSent = [])
    ∧ (req.isRepair = false → req.uploadMask < 2^32 →
      (completeThumbnailPush req).req.filemetaThumbnailHash =
        hexDigest req.thumbnailHashInput
      ∧ (completeThumbnailPush req).doneSent =
        List.range ((List.range 32).filter
          (fun j => req.uploadMask.testBit j)).length) := by
  constructor
  · intro hrep
    refine ⟨?_, ?_, ?_⟩
    · cases encRes <;> simp [pushThumbnailData, hrep]
    · simp [completeThumbnailPush, hrep]
    · simp [completeThumbnailPush, hrep]
  · intro hrep hmask
    constructor
    · simp [completeThumbnailPush, hrep]
    · have h1 : (completeThumbnailPush req).doneSent =
          (sendPairs req.uploadMask).map Prod.fst := by
        simp [completeThumbnailPush, hrep]
      rw [h1, sendPairs_eq req.uploadMask hmask]
      exact List.enum_map_fst _

def reqRep : UploadRequestT :=
  { isRepair := true, thumbRemaining := 10, thumbnailHashInput := [7],
    uploadMask := 37, datashards := 5, parityshards := 3,
    filemetaThumbnailHash := "orig" }

/-- Witness for C6: a repair-mode session and a fresh-upload session. -/
theorem c6_repair_mode_gates_witness :
    ((pushThumbnailData reqRep [1, 2] (Except.ok shardsD)).req.thumbnailHashInput =
        reqRep.thumbnailHashInput
      ∧ (completeThumbnailPush reqRep).req.filemetaThumbnailHash =
        reqRep.filemetaThumbnailHash
      ∧ (completeThumbnailPush reqRep).doneSent = [])
    ∧ ((completeThumbnailPush reqD).req.filemetaThumbnailHash =
        hexDigest reqD.thumbnailHashInput
      ∧ (completeThumbnailPush reqD).doneSent =
        List.range ((List.range 32).filter
          (fun j => reqD.uploadMask.testBit j)).length) :=
  ⟨(c6_repair_mode_gates reqRep [1, 2] (Except.ok shardsD)).1 (by rfl),
    (c6_repair_mode_gates reqD [] (Except.ok [])).2 (by rfl) (by decide)⟩

/-! ## List worker and consensus aggregator (src/unnamed/part_001) -/

/-- `fileref.FILE` (constant of the external `fileref` package). -/
def FILE : String := "f"

/-- `fileref.DIRECTORY` (constant of the external `fileref` package). -/
def DIRECTORY : String := "d"

/-- One child entry of a node's reported directory tree, as read by the
aggregator (`GetType`, `GetName`, `GetPath`, `GetNumBlocks`, and for files
`ActualFileHash`, `Size`, `MimeType` of `fileref.FileRef`). -/
structure ChildRef where
  type_ : String
  name : String
  path : String
  actualFileHash : String
  size : Int
  numBlocks : Int
  mimeType : String
deriving Repr, DecidableEq

/-- The root of one node's reported tree (`fileref.Ref` from `GetDirTree`). -/
structure DirTree where
  name : String
  path : String
  type_ : String
  children : List ChildRef
deriving Repr, DecidableEq

/-- One entry published on the fan-in channel (`listResponse`). -/
structure ListResponseM where
  /-- the `ref` pointer (`none` = nil). -/
  ref : Option DirTree
  responseStr : String
  blobberIdx : Nat
  err : Option String
deriving Repr, DecidableEq

/-- A merged child record (a `*ListResult` held in `childResultMap`; the Go
slice `result.Children` holds pointers to these records), including the
embedded `Consensus` counters. -/
structure ChildRec where
  name : String
  path : String
  type_ : String
  size : Int
  hash : String
  mimeType : String
  numBlocks : Int
  consensus : Nat
  consensusThresh : Nat
  fullconsensus : Nat
deriving Repr, DecidableEq

/-- Modelled from the spec: `Consensus.isConsensusMin` (the `Consensus` type
lives outside these sources).  The record's agreement counter has reached the
configured minimum, a function of `consensusThresh` (a percentage) and
`fullconsensus` (the expected total responder count). -/
def isConsensusMin (c : ChildRec) : Bool :=
  c.consensusThresh ≤ c.consensus * 100 / c.fullconsensus

/-- Go map lookup on the accumulated record store (`childResultMap`). -/
def findRec (k : String) : List (String × ChildRec) → Option ChildRec
  | [] => none
  | (k2, c) :: rest => if k2 = k then some c else findRec k rest

/-- In-place mutation of the record stored under `k` (the Go code mutates the
record through its pointer). -/
def updateRec (k : String) (f : ChildRec → ChildRec) :
    List (String × ChildRec) → List (String × ChildRec)
  | [] => []
  | (k2, c) :: rest =>
    if k2 = k then (k2, f c) :: rest else (k2, c) :: updateRec k f rest

/-- The merge state of `GetListFromBlobbers`: the root `result` fields, the
record store, the promoted children (as keys into the store, since the Go
slice holds pointers), and the `selected` path map. -/
structure MergeState where
  rootName : String
  rootPath : String
  rootType : String
  rootSize : Int
  numBlocks : Int
  recs : List (String × ChildRec)
  childrenKeys : List String
  selected : List String
deriving Repr, DecidableEq

/-- The identity key of a child entry: `Hash(path)` for a directory,
`Hash(path ++ ":" ++ ActualFileHash)` for a file. -/
def childKey (child : ChildRef) : String :=
  if child.type_ = FILE then Hash (child.path ++ ":" ++ child.actualFileHash)
  else Hash child.path

/-- The fresh record created on first sight of an identity key. -/
def freshRec (t f : Nat) (child : ChildRef) : ChildRec :=
  { name := child.name, path := child.path, type_ := child.type_,
    size := 0, hash := "", mimeType := "", numBlocks := 0,
    consensus := 0, consensusThresh := t, fullconsensus := f }

/-- The per-response mutation of an existing record: bump the agreement
counter, accumulate file size / copy hash and mime type for files, and
accumulate the block count. -/
def bumpRec (child : ChildRef) (c : ChildRec) : ChildRec :=
  if child.type_ = FILE then
    { c with
      consensus := c.consensus + 1
      size := c.size + child.size
      hash := child.actualFileHash
      mimeType := child.mimeType
      numBlocks := c.numBlocks + child.numBlocks }
  else
    { c with
      consensus := c.consensus + 1
      numBlocks := c.numBlocks + child.numBlocks }

/-- The inner loop body of `GetListFromBlobbers` for one child of one
response: create the record if the key is new, bump it, and promote it into
the result's child list when it has reached the consensus minimum and no
record with the same `child.GetPath()` has been promoted yet. -/
def processChild (t f : Nat) (st : MergeState) (child : ChildRef) :
    MergeState :=
  let key := childKey child
  let recs0 :=
    match findRec key st.recs with
    | some _ => st.recs
    | none => st.recs ++ [(key, freshRec t f child)]
  let recs1 := updateRec key (bumpRec child) recs0
  match findRec key recs1 with
  | none => { st with recs := recs1 }
  | some cr =>
    if isConsensusMin cr then
      if child.path ∈ st.selected then { st with recs := recs1 }
      else
        { st with
          recs := recs1
          childrenKeys := st.childrenKeys ++ [key]
          selected := st.selected ++ [child.path] }
    else { st with recs := recs1 }

/-- `result.Children` resolved to their current record values (the Go slice
holds pointers into `childResultMap`, so later bumps are visible). -/
def resolvedChildren (st : MergeState) : List ChildRec :=
  st.childrenKeys.filterMap (fun k => findRec k st.recs)

/-- The re-summation loop `for _, child := range result.Children
{ result.NumBlocks += child.NumBlocks }` executed at the end of each response
iteration. -/
def childBlockSum (st : MergeState) : Int :=
  ((resolvedChildren st).map ChildRec.numBlocks).sum

/-- The tail of each response iteration: add the current promoted children's
block counts to the root's running total. -/
def mergeFinish (st : MergeState) : MergeState :=
  { st with numBlocks := st.numBlocks + childBlockSum st }

/-- One iteration of the outer response loop of `GetListFromBlobbers`: skip
errored / nil-tree responses, overwrite the root fields, process every child,
then re-sum the promoted children's block counts. -/
def processResponse (t f : Nat) (st : MergeState) (ti : ListResponseM) :
    MergeState :=
  if ti.err.isSome then st
  else
    match ti.ref with
    | none => st
    | some ref =>
      mergeFinish (ref.children.foldl (processChild t f)
        (if ref.type_ = DIRECTORY then
          { st with
            rootName := ref.name
            rootPath := ref.path
            rootType := ref.type_
            rootSize := -1 }
        else
          { st with
            rootName := ref.name
            rootPath := ref.path
            rootType := ref.type_ }))

/-- The zero value `&ListResult{}` the merge starts from. -/
def initMergeState : MergeState :=
  { rootName := "", rootPath := "", rootType := "", rootSize := 0,
    numBlocks := 0, recs := [], childrenKeys := [], selected := [] }

/-- `GetListFromBlobbers`: merge all fan-in responses in order. -/
def GetListFromBlobbers (t f : Nat) (resps : List ListResponseM) :
    MergeState :=
  resps.foldl (processResponse t f) initMergeState

/-! ### C9: one published response per dispatched task -/

/-- The exit path taken by one `getListInfoFromBlobber` task, given by the
outcomes of its external calls in program order. -/
inductive ListTaskEnv where
  /-- `zboxutil.NewListRequest` failed. -/
  | reqBuildFail (e : String)
  /-- the transport handed the callback a non-nil error. -/
  | httpErr (e : String)
  /-- reading the response body failed. -/
  | bodyReadFail (e : String)
  /-- non-OK status; carries the body that was read into `s`. -/
  | non200 (body : String)
  /-- OK status but the body did not parse; the body and the parse error. -/
  | parseFail (body e : String)
  /-- OK status, parsed, but `GetDirTree` failed; carries the body, the
  pointer `GetDirTree` returned (overwriting `ref`) and its error. -/
  | dirTreeFail (body : String) (r : Option DirTree) (e : String)
  /-- success: the body and the decoded tree. -/
  | ok (body : String) (tree : DirTree)
deriving Repr, DecidableEq

/-- The non-nil empty `&fileref.Ref{}` that the `ref` variable starts as. -/
def emptyDirTree : DirTree := ⟨"", "", "", []⟩

/-- `getListInfoFromBlobber`: the task body; since `listRetFn` is deferred
before any early return, every branch exits through exactly one
`rspCh <- &listResponse{ref, s.String(), blobberIdx, err}` publication.  The
returned list collects, in order, what this task publishes on `rspCh`. -/
def getListInfoFromBlobber (idx : Nat) (env : ListTaskEnv) :
    List ListResponseM :=
  match env with
  | ListTaskEnv.reqBuildFail e => [⟨some emptyDirTree, "", idx, some e⟩]
  | ListTaskEnv.httpErr e => [⟨some emptyDirTree, "", idx, some e⟩]
  | ListTaskEnv.bodyReadFail e =>
      [⟨some emptyDirTree, "", idx, some ("Error: Resp : " ++ e)⟩]
  | ListTaskEnv.non200 body =>
      [⟨some emptyDirTree, body, idx,
        some ("error from server list response: " ++ body)⟩]
  | ListTaskEnv.parseFail body e =>
      [⟨some emptyDirTree, body, idx,
        some ("list entities response parse error: " ++ e)⟩]
  | ListTaskEnv.dirTreeFail body r e =>
      [⟨r, body, idx,
        some ("error getting the dir tree from list response: " ++ e)⟩]
  | ListTaskEnv.ok body tree => [⟨some tree, body, idx, none⟩]

/-- `getlistFromBlobbers`: dispatch one task per blobber (index `i` for
blobber `i`) and concatenate everything published on the shared channel. -/
def getlistFromBlobbers (envs : List ListTaskEnv) : List ListResponseM :=
  (envs.enum.map (fun p => getListInfoFromBlobber p.1 p.2)).join

/-- C9: every dispatched per-node list task publishes exactly one response on
the result channel regardless of its exit path, so the fan-in receives
exactly one response per node in the set. -/
theorem c9_one_response_per_task (idx : Nat) (env : ListTaskEnv)
    (envs : List ListTaskEnv) :
    (getListInfoFromBlobber idx env).length = 1
    ∧ (getlistFromBlobbers envs).length = envs.length := by
  constructor
  · cases env <;> rfl
  · unfold getlistFromBlobbers
    have h : ∀ l : List (Nat × ListTaskEnv),
        ((l.map (fun p => getListInfoFromBlobber p.1 p.2)).join).length
          = l.length := by
      intro l
      induction l with
      | nil => rfl
      | cons p rest ih =>
        obtain ⟨i, e⟩ := p
        have h1 : (getListInfoFromBlobber i e).length = 1 := by cases e <;> rfl
        show (getListInfoFromBlobber i e ++
          (rest.map (fun p => getListInfoFromBlobber p.1 p.2)).join).length
            = rest.length + 1
        rw [List.length_append, h1, ih]
        omega
    rw [h envs.enum, List.enum_length]

/-! ### C7: the root listing's block-count total -/

def childX : ChildRef :=
  { type_ := "f", name := "a", path := "/a", actualFileHash := "h",
    size := 3, numBlocks := 5, mimeType := "t" }

def respX : ListResponseM :=
  { ref := some { name := "root", path := "/", type_ := "d", children := [childX] },
    responseStr := "", blobberIdx := 0, err := none }

/-- Counterexample to C7: with two agreeing responses and a promotion
threshold reached at the first response, the root's NumBlocks is 15 while the
single promoted child's block count is 10 — the promoted child is re-counted
by the per-response re-summation loop, so NumBlocks is not the sum of the
promoted children's block counts with each child contributing once. -/
theorem c7_numblocks_counterexample :
    (GetListFromBlobbers 25 4 [respX, respX]).numBlocks = 15
    ∧ childBlockSum (GetListFromBlobbers 25 4 [respX, respX]) = 10
    ∧ (GetListFromBlobbers 25 4 [respX, respX]).numBlocks ≠
        childBlockSum (GetListFromBlobbers 25 4 [respX, respX]) := by
  refine ⟨by decide, by decide, by decide⟩

theorem processChild_numBlocks (t f : Nat) (st : MergeState) (c : ChildRef) :
    (processChild t f st c).numBlocks = st.numBlocks := by
  simp only [processChild]
  repeat' split
  all_goals rfl

theorem foldl_processChild_numBlocks (t f : Nat) (cs : List ChildRef)
    (st : MergeState) :
    (cs.foldl (processChild t f) st).numBlocks = st.numBlocks := by
  induction cs generalizing st with
  | nil => rfl
  | cons c cs ih => rw [List.foldl_cons, ih, processChild_numBlocks]

theorem respTail_nb (t f : Nat) (cs : List ChildRef) (st2 : MergeState)
    (h0 : st2.numBlocks = 0) :
    (mergeFinish (cs.foldl (processChild t f) st2)).numBlocks
      = childBlockSum (mergeFinish (cs.foldl (processChild t f) st2)) := by
  have h3 := foldl_processChild_numBlocks t f cs st2
  have h1 : (mergeFinish (cs.foldl (processChild t f) st2)).numBlocks
      = (cs.foldl (processChild t f) st2).numBlocks
        + childBlockSum (cs.foldl (processChild t f) st2) := rfl
  have h2 : childBlockSum (mergeFinish (cs.foldl (processChild t f) st2))
      = childBlockSum (cs.foldl (processChild t f) st2) := rfl
  rw [h1, h2, h3, h0]
  simp

/-- C7 (amended): the re-summation of promoted children's block counts runs
once per successfully merged response, so with a single merged response the
root's NumBlocks equals the sum of the promoted children's block counts; with
several merged responses, children promoted earlier are re-counted once per
later response (see the counterexample). -/
theorem c7_numblocks_single_response (thresh full : Nat)
    (resp : ListResponseM) :
    (GetListFromBlobbers thresh full [resp]).numBlocks =
      childBlockSum (GetListFromBlobbers thresh full [resp]) := by
  obtain ⟨ref, s, i, err⟩ := resp
  cases err with
  | some e => rfl
  | none =>
    cases ref with
    | none => rfl
    | some tree =>
      by_cases hdir : tree.type_ = DIRECTORY
      · have hpr : GetListFromBlobbers thresh full [⟨some tree, s, i, none⟩] =
            mergeFinish (tree.children.foldl (processChild thresh full)
              { initMergeState with
                rootName := tree.name
                rootPath := tree.path
                rootType := tree.type_
                rootSize := -1 }) := by
          show processResponse thresh full initMergeState
            ⟨some tree, s, i, none⟩ = _
          simp [processResponse, hdir]
        rw [hpr]
        exact respTail_nb thresh full tree.children _ rfl
      · have hpr : GetListFromBlobbers thresh full [⟨some tree, s, i, none⟩] =
            mergeFinish (tree.children.foldl (processChild thresh full)
              { initMergeState with
                rootName := tree.name
                rootPath := tree.path
                rootType := tree.type_ }) := by
          show processResponse thresh full initMergeState
            ⟨some tree, s, i, none⟩ = _
          simp [processResponse, hdir]
        rw [hpr]
        exact respTail_nb thresh full tree.children _ rfl

/-! ### C8: promotion invariants of the merge -/

theorem findRec_append (k k2 : String) (c : ChildRec)
    (l : List (String × ChildRec)) :
    findRec k (l ++ [(k2, c)]) =
      match findRec k l with
      | some c2 => some c2
      | none => if k2 = k then some c else none := by
  induction l with
  | nil => rfl
  | cons p rest ih =>
    obtain ⟨k3, c3⟩ := p
    by_cases h : k3 = k
    · simp [findRec, h]
    · simp [findRec, h, ih]

theorem findRec_updateRec_self (k : String) (f : ChildRec → ChildRec)
    (l : List (String × ChildRec)) :
    findRec k (updateRec k f l) = (findRec k l).map f := by
  induction l with
  | nil => rfl
  | cons p rest ih =>
    obtain ⟨k2, c⟩ := p
    by_cases h : k2 = k
    · simp [updateRec, findRec, h]
    · simp [updateRec, findRec, h, ih]

theorem findRec_updateRec_ne (k k2 : String) (f : ChildRec → ChildRec)
    (l : List (String × ChildRec)) (h : k ≠ k2) :
    findRec k (updateRec k2 f l) = findRec k l := by
  induction l with
  | nil => rfl
  | cons p rest ih =>
    obtain ⟨k3, c⟩ := p
    by_cases h2 : k3 = k2
    · subst h2
      have h3 : ¬ k3 = k := fun he => h (he ▸ rfl)
      simp [updateRec, findRec, h3]
    · by_cases h3 : k3 = k
      · simp [updateRec, findRec, h2, h3, h]
      · simp [updateRec, findRec, h2, h3, ih]

theorem bumpRec_path (ch : ChildRef) (c : ChildRec) :
    (bumpRec ch c).path = c.path := by
  unfold bumpRec
  split <;> rfl

theorem bumpRec_consensus (ch : ChildRef) (c : ChildRec) :
    (bumpRec ch c).consensus = c.consensus + 1 := by
  unfold bumpRec
  split <;> rfl

theorem bumpRec_thresh (ch : ChildRef) (c : ChildRec) :
    (bumpRec ch c).consensusThresh = c.consensusThresh := by
  unfold bumpRec
  split <;> rfl

theorem bumpRec_full (ch : ChildRef) (c : ChildRec) :
    (bumpRec ch c).fullconsensus = c.fullconsensus := by
  unfold bumpRec
  split <;> rfl

theorem isConsensusMin_bump (ch : ChildRef) (c : ChildRec)
    (h : isConsensusMin c = true) : isConsensusMin (bumpRec ch c) = true := by
  unfold isConsensusMin at h ⊢
  rw [bumpRec_consensus, bumpRec_thresh, bumpRec_full]
  simp only [decide_eq_true_eq] at h ⊢
  calc c.consensusThresh ≤ c.consensus * 100 / c.fullconsensus := h
    _ ≤ (c.consensus + 1) * 100 / c.fullconsensus :=
      Nat.div_le_div_right (by omega)

theorem filterMap_path_congr (keys : List String)
    (l1 l2 : List (String × ChildRec))
    (h : ∀ k ∈ keys, Option.map ChildRec.path (findRec k l2) =
      Option.map ChildRec.path (findRec k l1)) :
    (keys.filterMap (fun k => findRec k l2)).map ChildRec.path =
      (keys.filterMap (fun k => findRec k l1)).map ChildRec.path := by
  induction keys with
  | nil => rfl
  | cons k ks ih =>
    have hk := h k (by simp)
    have hks : ∀ k2 ∈ ks, Option.map ChildRec.path (findRec k2 l2) =
        Option.map ChildRec.path (findRec k2 l1) :=
      fun k2 hk2 => h k2 (by simp [hk2])
    simp only [List.filterMap_cons]
    cases h2 : findRec k l2 with
    | none =>
      cases h1 : findRec k l1 with
      | none => exact ih hks
      | some c1 => rw [h2, h1] at hk; simp at hk
    | some c2 =>
      cases h1 : findRec k l1 with
      | none => rw [h2, h1] at hk; simp at hk
      | some c1 =>
        rw [h2, h1] at hk
        simp only [Option.map_some'] at hk
        simp only [List.map_cons]
        rw [ih hks]
        congr 1
        simpa using hk

theorem processChild_cases (t f : Nat) (st : MergeState) (ch : ChildRef) :
    ∃ c0, (findRec (childKey ch) st.recs = some c0
        ∨ (findRec (childKey ch) st.recs = none ∧ c0 = freshRec t f ch))
      ∧ findRec (childKey ch) (processChild t f st ch).recs
          = some (bumpRec ch c0)
      ∧ (∀ k, k ≠ childKey ch →
          findRec k (processChild t f st ch).recs = findRec k st.recs)
      ∧ ((isConsensusMin (bumpRec ch c0) = true ∧ ch.path ∉ st.selected) →
          (processChild t f st ch).selected = st.selected ++ [ch.path]
          ∧ (processChild t f st ch).childrenKeys =
            st.childrenKeys ++ [childKey ch])
      ∧ (¬(isConsensusMin (bumpRec ch c0) = true ∧ ch.path ∉ st.selected) →
          (processChild t f st ch).selected = st.selected
          ∧ (processChild t f st ch).childrenKeys = st.childrenKeys) := by
  cases hf : findRec (childKey ch) st.recs with
  | some c0 =>
    have hfind1 : findRec (childKey ch)
        (updateRec (childKey ch) (bumpRec ch) st.recs)
          = some (bumpRec ch c0) := by
      rw [findRec_updateRec_self, hf]
      rfl
    have hpc : processChild t f st ch =
        (if isConsensusMin (bumpRec ch c0) = true then
          if ch.path ∈ st.selected then
            { st with recs := updateRec (childKey ch) (bumpRec ch) st.recs }
          else
            { st with
              recs := updateRec (childKey ch) (bumpRec ch) st.recs
              childrenKeys := st.childrenKeys ++ [childKey ch]
              selected := st.selected ++ [ch.path] }
        else
          { st with recs := updateRec (childKey ch) (bumpRec ch) st.recs }) := by
      simp only [processChild, hf, hfind1]
    refine ⟨c0, Or.inl rfl, ?_, ?_, ?_, ?_⟩
    · rw [hpc]
      by_cases hmin : isConsensusMin (bumpRec ch c0) = true
      · by_cases hmem : ch.path ∈ st.selected
        · rw [if_pos hmin, if_pos hmem]; exact hfind1
        · rw [if_pos hmin, if_neg hmem]; exact hfind1
      · rw [if_neg hmin]; exact hfind1
    · intro k hkk
      rw [hpc]
      by_cases hmin : isConsensusMin (bumpRec ch c0) = true
      · by_cases hmem : ch.path ∈ st.selected
        · rw [if_pos hmin, if_pos hmem]
          exact findRec_updateRec_ne k (childKey ch) (bumpRec ch) st.recs hkk
        · rw [if_pos hmin, if_neg hmem]
          exact findRec_updateRec_ne k (childKey ch) (bumpRec ch) st.recs hkk
      · rw [if_neg hmin]
        exact findRec_updateRec_ne k (childKey ch) (bumpRec ch) st.recs hkk
    · rintro ⟨hmin, hmem⟩
      rw [hpc, if_pos hmin, if_neg hmem]
      exact ⟨rfl, rfl⟩
    · intro hcond
      rw [hpc]
      by_cases hmin : isConsensusMin (bumpRec ch c0) = true
      · have hmem : ch.path ∈ st.selected := by
          by_contra hmem
          exact hcond ⟨hmin, hmem⟩
        rw [if_pos hmin, if_pos hmem]
        exact ⟨rfl, rfl⟩
      · rw [if_neg hmin]
        exact ⟨rfl, rfl⟩
  | none =>
    have hfind0 : findRec (childKey ch)
        (st.recs ++ [(childKey ch, freshRec t f ch)]) = some (freshRec t f ch) := by
      rw [findRec_append, hf]
      simp
    have hfind1 : findRec (childKey ch)
        (updateRec (childKey ch) (bumpRec ch)
          (st.recs ++ [(childKey ch, freshRec t f ch)]))
          = some (bumpRec ch (freshRec t f ch)) := by
      rw [findRec_updateRec_self, hfind0]
      rfl
    have hfindk : ∀ k, k ≠ childKey ch →
        findRec k (updateRec (childKey ch) (bumpRec ch)
          (st.recs ++ [(childKey ch, freshRec t f ch)])) = findRec k st.recs := by
      intro k hkk
      rw [findRec_updateRec_ne k (childKey ch) (bumpRec ch) _ hkk,
        findRec_append]
      cases hk : findRec k st.recs with
      | some c2 => rfl
      | none =>
        have h4 : ¬ childKey ch = k := fun he => hkk he.symm
        simp [h4]
    have hpc : processChild t f st ch =
        (if isConsensusMin (bumpRec ch (freshRec t f ch)) = true then
          if ch.path ∈ st.selected then
            { st with recs := updateRec (childKey ch) (bumpRec ch) (st.recs ++ [(childKey ch, freshRec t f ch)]) }
          else
            { st with
              recs := updateRec (childKey ch) (bumpRec ch) (st.recs ++ [(childKey ch, freshRec t f ch)])
              childrenKeys := st.childrenKeys ++ [childKey ch]
              selected := st.selected ++ [ch.path] }
        else
          { st with recs := updateRec (childKey ch) (bumpRec ch) (st.recs ++ [(childKey ch, freshRec t f ch)]) }) := by
      simp only [processChild, hf, hfind1]
    refine ⟨freshRec t f ch, Or.inr ⟨rfl, rfl⟩, ?_, ?_, ?_, ?_⟩
    · rw [hpc]
      by_cases hmin : isConsensusMin (bumpRec ch (freshRec t f ch)) = true
      · by_cases hmem : ch.path ∈ st.selected
        · rw [if_pos hmin, if_pos hmem]; exact hfind1
        · rw [if_pos hmin, if_neg hmem]; exact hfind1
      · rw [if_neg hmin]; exact hfind1
    · intro k hkk
      rw [hpc]
      by_cases hmin : isConsensusMin (bumpRec ch (freshRec t f ch)) = true
      · by_cases hmem : ch.path ∈ st.selected
        · rw [if_pos hmin, if_pos hmem]; exact hfindk k hkk
        · rw [if_pos hmin, if_neg hmem]; exact hfindk k hkk
      · rw [if_neg hmin]; exact hfindk k hkk
    · rintro ⟨hmin, hmem⟩
      rw [hpc, if_pos hmin, if_neg hmem]
      exact ⟨rfl, rfl⟩
    · intro hcond
      rw [hpc]
      by_cases hmin : isConsensusMin (bumpRec ch (freshRec t f ch)) = true
      · have hmem : ch.path ∈ st.selected := by
          by_contra hmem
          exact hcond ⟨hmin, hmem⟩
        rw [if_pos hmin, if_pos hmem]
        exact ⟨rfl, rfl⟩
      · rw [if_neg hmin]
        exact ⟨rfl, rfl⟩

/-- The children carried by one fan-in response. -/
def respChildren (ti : ListResponseM) : List ChildRef :=
  match ti.ref with
  | some r => r.children
  | none => []

/-- All children appearing in any response (a superset of those processed). -/
def allChildren (resps : List ListResponseM) : List ChildRef :=
  resps.bind respChildren

/-- The identity key determines the path: two children with equal keys have
equal paths.  This holds whenever `path ++ ":" ++ contentHash` concatenations
are unambiguous (e.g. colon-free content hashes). -/
def KeyPathConsistent (ALL : List ChildRef) : Prop :=
  ∀ ch1 ∈ ALL, ∀ ch2 ∈ ALL, childKey ch1 = childKey ch2 → ch1.path = ch2.path

/-- Merge invariant: (1) promoted keys are pairwise distinct; (2) every
promoted key's record has reached the consensus minimum; (3) every record at
the minimum has its path among the selected paths; (4) the selected paths are
exactly the promoted children's paths in promotion order; (5) every stored
record originates from some response child (same key, same path). -/
def MergeInv (ALL : List ChildRef) (st : MergeState) : Prop :=
  st.childrenKeys.Nodup
  ∧ (∀ k ∈ st.childrenKeys,
      ∃ c, findRec k st.recs = some c ∧ isConsensusMin c = true)
  ∧ (∀ k c, findRec k st.recs = some c → isConsensusMin c = true →
      c.path ∈ st.selected)
  ∧ st.selected = (resolvedChildren st).map ChildRec.path
  ∧ (∀ k c, findRec k st.recs = some c →
      ∃ ch0 ∈ ALL, childKey ch0 = k ∧ c.path = ch0.path)

theorem processChild_inv (t f : Nat) (ALL : List ChildRef) (st : MergeState)
    (ch : ChildRef) (hch : ch ∈ ALL) (hcons : KeyPathConsistent ALL)
    (hinv : MergeInv ALL st) : MergeInv ALL (processChild t f st ch) := by
  obtain ⟨h1, h2, h3, h4, h5⟩ := hinv
  obtain ⟨c0, hc0, hfind1, hfindk, hpos, hneg⟩ := processChild_cases t f st ch
  have hc0path : c0.path = ch.path := by
    rcases hc0 with hf | ⟨hf, hfr⟩
    · obtain ⟨ch0, hch0, hkey0, hpath0⟩ := h5 (childKey ch) c0 hf
      rw [hpath0]
      exact hcons ch0 hch0 ch hch hkey0
    · rw [hfr]
      rfl
  have h5' : ∀ k c, findRec k (processChild t f st ch).recs = some c →
      ∃ ch0 ∈ ALL, childKey ch0 = k ∧ c.path = ch0.path := by
    intro k c hk
    by_cases hkk : k = childKey ch
    · subst hkk
      rw [hfind1] at hk
      injection hk with hk
      subst hk
      exact ⟨ch, hch, rfl, by rw [bumpRec_path, hc0path]⟩
    · rw [hfindk k hkk] at hk
      exact h5 k c hk
  by_cases hcond : isConsensusMin (bumpRec ch c0) = true ∧ ch.path ∉ st.selected
  · obtain ⟨hsel', hkeys'⟩ := hpos hcond
    obtain ⟨hmin, hmem⟩ := hcond
    have hknew : childKey ch ∉ st.childrenKeys := by
      intro hkin
      obtain ⟨c, hcfind, hcmin⟩ := h2 (childKey ch) hkin
      have hcpath := h3 (childKey ch) c hcfind hcmin
      obtain ⟨ch0, hch0, hkey0, hpath0⟩ := h5 (childKey ch) c hcfind
      rw [hpath0, hcons ch0 hch0 ch hch hkey0] at hcpath
      exact hmem hcpath
    refine ⟨?_, ?_, ?_, ?_, h5'⟩
    · rw [hkeys', List.nodup_append]
      refine ⟨h1, by simp, ?_⟩
      intro a ha hb
      simp at hb
      subst hb
      exact hknew ha
    · intro k hkin
      rw [hkeys'] at hkin
      rcases List.mem_append.1 hkin with hkin | hkin
      · by_cases hkk : k = childKey ch
        · subst hkk
          exact ⟨bumpRec ch c0, hfind1, hmin⟩
        · obtain ⟨c, hcfind, hcmin⟩ := h2 k hkin
          rw [← hfindk k hkk] at hcfind
          exact ⟨c, hcfind, hcmin⟩
      · simp at hkin
        subst hkin
        exact ⟨bumpRec ch c0, hfind1, hmin⟩
    · intro k c hkfind hcmin
      rw [hsel']
      by_cases hkk : k = childKey ch
      · subst hkk
        rw [hfind1] at hkfind
        injection hkfind with he
        subst he
        rw [bumpRec_path, hc0path]
        simp
      · rw [hfindk k hkk] at hkfind
        have hp := h3 k c hkfind hcmin
        simp [hp]
    · rw [hsel']
      unfold resolvedChildren
      rw [hkeys', List.filterMap_append, List.map_append]
      have hstable : (st.childrenKeys.filterMap
          (fun k => findRec k (processChild t f st ch).recs)).map ChildRec.path
            = (st.childrenKeys.filterMap
              (fun k => findRec k st.recs)).map ChildRec.path := by
        apply filterMap_path_congr
        intro k hkin
        by_cases hkk : k = childKey ch
        · subst hkk
          exact absurd hkin hknew
        · rw [hfindk k hkk]
      rw [hstable]
      have hlast : ([childKey ch].filterMap
          (fun k => findRec k (processChild t f st ch).recs))
            = [bumpRec ch c0] := by
        simp [hfind1]
      rw [hlast]
      simp only [List.map_cons, List.map_nil]
      rw [bumpRec_path, hc0path, h4]
      rfl
  · obtain ⟨hsel', hkeys'⟩ := hneg hcond
    refine ⟨?_, ?_, ?_, ?_, h5'⟩
    · rw [hkeys']
      exact h1
    · intro k hkin
      rw [hkeys'] at hkin
      by_cases hkk : k = childKey ch
      · subst hkk
        obtain ⟨c, hcfind, hcmin⟩ := h2 _ hkin
        rcases hc0 with hf | ⟨hf, hfr⟩
        · rw [hf] at hcfind
          injection hcfind with he
          subst he
          exact ⟨bumpRec ch c0, hfind1, isConsensusMin_bump ch c0 hcmin⟩
        · rw [hf] at hcfind
          exact absurd hcfind (by simp)
      · obtain ⟨c2, hcfind, hcmin⟩ := h2 k hkin
        exact ⟨c2, by rw [hfindk k hkk]; exact hcfind, hcmin⟩
    · intro k c hkfind hcmin
      rw [hsel']
      by_cases hkk : k = childKey ch
      · subst hkk
        rw [hfind1] at hkfind
        injection hkfind with he
        subst he
        have hmem : ch.path ∈ st.selected := by
          by_contra hmem
          exact hcond ⟨hcmin, hmem⟩
        rw [bumpRec_path, hc0path]
        exact hmem
      · rw [hfindk k hkk] at hkfind
        exact h3 k c hkfind hcmin
    · rw [hsel']
      unfold resolvedChildren
      rw [hkeys']
      have hstable : (st.childrenKeys.filterMap
          (fun k => findRec k (processChild t f st ch).recs)).map ChildRec.path
            = (st.childrenKeys.filterMap
              (fun k => findRec k st.recs)).map ChildRec.path := by
        apply filterMap_path_congr
        intro k hkin
        by_cases hkk : k = childKey ch
        · subst hkk
          obtain ⟨c, hcfind, hcmin⟩ := h2 (childKey ch) hkin
          rcases hc0 with hf | ⟨hf, hfr⟩
          · rw [hf] at hcfind
            injection hcfind with he
            subst he
            rw [hfind1, hf]
            simp only [Option.map_some']
            rw [bumpRec_path]
          · rw [hf] at hcfind
            exact absurd hcfind (by simp)
        · rw [hfindk k hkk]
      rw [hstable]
      exact h4

theorem foldl_processChild_inv (t f : Nat) (ALL : List ChildRef)
    (cs : List ChildRef) (hcs : ∀ c ∈ cs, c ∈ ALL)
    (hcons : KeyPathConsistent ALL) (st : MergeState)
    (hinv : MergeInv ALL st) :
    MergeInv ALL (cs.foldl (processChild t f) st) := by
  induction cs generalizing st with
  | nil => exact hinv
  | cons c cs ih =>
    exact ih (fun x hx => hcs x (by simp [hx])) (processChild t f st c)
      (processChild_inv t f ALL st c (hcs c (by simp)) hcons hinv)

theorem mergeInv_same (ALL : List ChildRef) (st st2 : MergeState)
    (hr : st2.recs = st.recs) (hk : st2.childrenKeys = st.childrenKeys)
    (hs : st2.selected = st.selected) (h : MergeInv ALL st) :
    MergeInv ALL st2 := by
  obtain ⟨h1, h2, h3, h4, h5⟩ := h
  refine ⟨by rw [hk]; exact h1, ?_, ?_, ?_, ?_⟩
  · intro k hkin
    rw [hk] at hkin
    rw [hr]
    exact h2 k hkin
  · intro k c hf hm
    rw [hr] at hf
    rw [hs]
    exact h3 k c hf hm
  · unfold resolvedChildren
    rw [hs, hk, hr]
    exact h4
  · intro k c hf
    rw [hr] at hf
    exact h5 k c hf

theorem processResponse_inv (t f : Nat) (ALL : List ChildRef)
    (st : MergeState) (ti : ListResponseM)
    (hsub : ∀ c ∈ respChildren ti, c ∈ ALL)
    (hcons : KeyPathConsistent ALL) (hinv : MergeInv ALL st) :
    MergeInv ALL (processResponse t f st ti) := by
  unfold processResponse
  by_cases herr : ti.err.isSome
  · rw [if_pos herr]
    exact hinv
  · rw [if_neg herr]
    cases href : ti.ref with
    | none => exact hinv
    | some ref =>
      have hsub2 : ∀ c ∈ ref.children, c ∈ ALL := by
        intro c hc
        apply hsub
        unfold respChildren
        rw [href]
        exact hc
      by_cases hdir : ref.type_ = DIRECTORY
      · simp only [hdir, if_true]
        apply mergeInv_same ALL _ _ rfl rfl rfl
        apply foldl_processChild_inv t f ALL ref.children hsub2 hcons
        exact mergeInv_same ALL st _ rfl rfl rfl hinv
      · simp only [hdir, if_false]
        apply mergeInv_same ALL _ _ rfl rfl rfl
        apply foldl_processChild_inv t f ALL ref.children hsub2 hcons
        exact mergeInv_same ALL st _ rfl rfl rfl hinv

theorem getList_inv (t f : Nat) (resps : List ListResponseM)
    (hcons : KeyPathConsistent (allChildren resps)) :
    MergeInv (allChildren resps) (GetListFromBlobbers t f resps) := by
  have hinit : MergeInv (allChildren resps) initMergeState := by
    refine ⟨List.nodup_nil, ?_, ?_, rfl, ?_⟩
    · intro k hkin
      simp [initMergeState] at hkin
    · intro k c hf
      simp [initMergeState, findRec] at hf
    · intro k c hf
      simp [initMergeState, findRec] at hf
  have hgen : ∀ (rs : List ListResponseM) (st : MergeState),
      (∀ ti ∈ rs, ∀ c ∈ respChildren ti, c ∈ allChildren resps) →
      MergeInv (allChildren resps) st →
      MergeInv (allChildren resps) (rs.foldl (processResponse t f) st) := by
    intro rs
    induction rs with
    | nil => intro st _ hinv; exact hinv
    | cons r rs ih =>
      intro st hsub hinv
      exact ih (processResponse t f st r)
        (fun ti hti => hsub ti (by simp [hti]))
        (processResponse_inv t f (allChildren resps) st r
          (hsub r (by simp)) hcons hinv)
  apply hgen resps initMergeState ?_ hinit
  intro ti hti c hc
  unfold allChildren
  exact List.mem_bind.2 ⟨ti, hti, hc⟩

/-- C8 (amended): provided the identity key determines the path (two
accumulated children with equal keys have equal paths — true whenever the
`path ++ ":" ++ contentHash` concatenations are unambiguous), the merge
promotes each accumulated record at most once (the promoted key list is
duplicate-free), promotes only records whose agreement counter has reached
the configured consensus minimum, and every record that has reached the
minimum has its path among the promoted children's paths: when a record
first reaches the minimum it is promoted unless a record with the same
`child.GetPath()` has already been promoted, because the dedupe guard is
keyed by path rather than by the record's identity key (see the
counterexample). -/
theorem c8_promotion_invariants (t f : Nat) (resps : List ListResponseM)
    (hcons : KeyPathConsistent (allChildren resps)) :
    (GetListFromBlobbers t f resps).childrenKeys.Nodup
    ∧ (∀ k ∈ (GetListFromBlobbers t f resps).childrenKeys,
        ∃ c, findRec k (GetListFromBlobbers t f resps).recs = some c
          ∧ isConsensusMin c = true)
    ∧ (∀ k c, findRec k (GetListFromBlobbers t f resps).recs = some c →
        isConsensusMin c = true →
        c.path ∈ (resolvedChildren
          (GetListFromBlobbers t f resps)).map ChildRec.path) := by
  obtain ⟨h1, h2, h3, h4, h5⟩ := getList_inv t f resps hcons
  refine ⟨h1, h2, ?_⟩
  intro k c hf hm
  rw [← h4]
  exact h3 k c hf hm

/-- Witness for C8 (amended) at a concrete single-response merge. -/
theorem c8_promotion_invariants_witness :
    (GetListFromBlobbers 25 4 [respX]).childrenKeys.Nodup
    ∧ (∀ k ∈ (GetListFromBlobbers 25 4 [respX]).childrenKeys,
        ∃ c, findRec k (GetListFromBlobbers 25 4 [respX]).recs = some c
          ∧ isConsensusMin c = true)
    ∧ (∀ k c, findRec k (GetListFromBlobbers 25 4 [respX]).recs = some c →
        isConsensusMin c = true →
        c.path ∈ (resolvedChildren
          (GetListFromBlobbers 25 4 [respX])).map ChildRec.path) :=
  c8_promotion_invariants 25 4 [respX] (by unfold KeyPathConsistent; decide)

def chA1 : ChildRef :=
  { type_ := "f", name := "a", path := "/a", actualFileHash := "h1",
    size := 1, numBlocks := 1, mimeType := "t" }

def chA2 : ChildRef :=
  { type_ := "f", name := "a", path := "/a", actualFileHash := "h2",
    size := 1, numBlocks := 1, mimeType := "t" }

def respA1 : ListResponseM :=
  { ref := some { name := "root", path := "/", type_ := "d", children := [chA1] },
    responseStr := "", blobberIdx := 0, err := none }

def respA2 : ListResponseM :=
  { ref := some { name := "root", path := "/", type_ := "d", children := [chA2] },
    responseStr := "", blobberIdx := 0, err := none }

def respsC8 : List ListResponseM := [respA1, respA1, respA2, respA2]

/-- Counterexample to C8: with 4 responders at a 50% threshold, the record
keyed by `Hash("/a" ++ ":" ++ "h2")` reaches the configured minimum for the
first time on the fourth response (counter 2), yet it is never appended to
the result's child list, because the record keyed by
`Hash("/a" ++ ":" ++ "h1")` with the same path was promoted earlier and the
dedupe guard is keyed by `child.GetPath()` — so "the first time that
record's counter reaches the minimum it is promoted" fails as stated. -/
theorem c8_promotion_counterexample :
    (findRec (childKey chA2) (GetListFromBlobbers 50 4 respsC8).recs).map
        isConsensusMin = some true
    ∧ (findRec (childKey chA2) (GetListFromBlobbers 50 4 respsC8).recs).map
        ChildRec.consensus = some 2
    ∧ childKey chA2 ∉ (GetListFromBlobbers 50 4 respsC8).childrenKeys
    ∧ (GetListFromBlobbers 50 4 respsC8).childrenKeys = [childKey chA1] :=
  ⟨by decide, by decide, by decide, by decide⟩
